import Mathlib

/-!
The batch decompile command of shockrays.

A shallow embedding of `cmd/decompile.go` and `shockrays/file_types.go`.

Go strings are modelled by Lean `String`s and inspected through their list of
characters.  The only separator the program ever splits on is the one-byte
string ".", which never occurs inside a multi-byte character, so splitting
on the character '.' is the same as splitting on the byte.

A Go `error` is modelled by `Option String`: `none` is `nil`, `some msg` is a
non-nil error carrying its message.  A run-time panic is a value of `Panic`.
-/

namespace Shockrays

/-! ## Library primitives used by the program -/

/-- Run-time panics of the Go runtime that the program could raise. -/
inductive Panic where
  | indexOutOfRange (index length : Nat)
deriving DecidableEq, Repr

deriving instance DecidableEq for Except

/-- The first segment of a character list and the segments after it, cut at
every occurrence of `sep`. -/
def splitChars (sep : Char) : List Char → List Char × List (List Char)
  | [] => ([], [])
  | c :: cs =>
    if c = sep then ([], (splitChars sep cs).1 :: (splitChars sep cs).2)
    else (c :: (splitChars sep cs).1, (splitChars sep cs).2)

/-- Go `strings.Split(s, sep)` for a one-character separator: all substrings
of `s` between occurrences of `sep`; a string without `sep` gives `[s]`. -/
def stringsSplit (s : String) (sep : Char) : List String :=
  String.mk (splitChars sep s.data).1 :: (splitChars sep s.data).2.map String.mk

/-- Go `strings.Contains(s, sep)` for a one-character `sep`. -/
def stringsContains (s : String) (sep : Char) : Bool :=
  s.data.contains sep

/-- Go slice indexing `xs[i]`, which panics when `i` is out of range. -/
def index (xs : List String) (i : Nat) : Except Panic String :=
  match xs.get? i with
  | some x => .ok x
  | none => .error (.indexOutOfRange i xs.length)

/-! ## shockrays/file_types.go -/

def cct : String := "cct"
def cxt : String := "cxt"
def dcr : String := "dcr"
def dxr : String := "dxr"
def dir : String := "dir"
def cst : String := "cst"

/-- ValidFileExtension: true exactly for the six Director/Shockwave
extensions. -/
def ValidFileExtension (ext : String) : Bool :=
  if ext = cct ∨ ext = cxt ∨ ext = dcr ∨ ext = dxr ∨ ext = dir ∨ ext = cst then true
  else false

/-! ## cmd/decompile.go: validFileNames -/

/-- The body of the `for _, name := range fileNames` loop of `validFileNames`
(lines 128-143): `ok true` when the body appends `name` to `validFiles`,
`ok false` when it does not, `error` when the body panics. -/
def keepName (name : String) : Except Panic Bool :=
  if !stringsContains name '.' then .ok false
  else
    match index (stringsSplit name '.') 1 with
    | .error p => .error p
    | .ok extension => .ok (ValidFileExtension extension)

/-- The filter loop of `validFileNames`, with `validFiles` the slice built so
far. -/
def filterLoop : List String → List String → Except Panic (List String)
  | [], validFiles => .ok validFiles
  | name :: rest, validFiles =>
    match keepName name with
    | .error p => .error p
    | .ok true => filterLoop rest (validFiles ++ [name])
    | .ok false => filterLoop rest validFiles

/-- The part of the operating system that `validFileNames` reads. -/
structure DirReader where
  /-- The error of `os.Open(path)`. -/
  Open : String → Option String
  /-- The result of `dir.Readdirnames(-1)` on the directory opened at `path`. -/
  Readdirnames : String → List String × Option String

/-- The error built by `fmt.Errorf` at line 123. -/
def emptyInputError (inputPath : String) : String :=
  "the specified input directory contains no files to decompile: " ++ inputPath

/-- validFileNames (lines 110-146).  The result is the Go pair
`([]string, error)`; the `Debug` log call has no effect on it and is left
out. -/
def validFileNames (fs : DirReader) (inputPath : String) :
    Except Panic (List String × Option String) :=
  match fs.Open inputPath with
  | some err => .ok ([], some err)
  | none =>
    match fs.Readdirnames inputPath with
    | (_, some err) => .ok ([], some err)
    | (fileNames, none) =>
      if fileNames.length = 0 then .ok ([], some (emptyInputError inputPath))
      else
        match filterLoop fileNames [] with
        | .error p => .error p
        | .ok validFiles => .ok (validFiles, none)

/-! ## The extension check as the specification words it -/

/-- The six known container extensions. -/
def knownExtensions : List String := ["cct", "cxt", "dcr", "dxr", "dir", "cst"]

/-- The segment of `name` between its first '.' and its next '.' (or the end
of the name); `none` when `name` has no '.'. -/
def segmentAfterFirstDot (name : String) : Option String :=
  match name.data.dropWhile (fun c => c != '.') with
  | [] => none
  | _ :: rest => some (String.mk (rest.takeWhile (fun c => c != '.')))

/-- The part of `name` before its first '.' (all of `name` when it has no
'.'). -/
def beforeFirstDot (name : String) : String :=
  String.mk (name.data.takeWhile (fun c => c != '.'))

/-- The specification's `isSupported`: the segment after the first '.' exists
and is a known extension. -/
def isSupported (name : String) : Bool :=
  match segmentAfterFirstDot name with
  | none => false
  | some seg => knownExtensions.contains seg

/-! ## cmd/config.go and cmd/app.go -/

/-- Config: the configurable options of the application. -/
structure Config where
  PRDirectory : String
  ScriptOutputDir : String
  PRBinName : String
deriving DecidableEq, Repr

/-- The application state; the logger and the viper handle carry no data the
modelled functions read and are left out. -/
structure appState where
  homePath : String
  debug : Bool
  config : Config
deriving DecidableEq, Repr

/-! ## cmd/flags.go and projectorRaysDir -/

def PROJECTOR_RAYS : String := "PROJECTOR_RAYS"

def flagPRDir : String := "projector-rays"

/-- A pflag flag set restricted to string flags: every defined flag with its
current value. -/
abbrev FlagSet := List (String × String)

/-- The pflag call `StringP(name, shorthand, value, usage)`: defines the flag
`name` with default `value`. -/
def FlagSet.StringP (flags : FlagSet) (name value : String) : FlagSet :=
  flags ++ [(name, value)]

/-- The effect of parsing `--name value` from the command line. -/
def FlagSet.Set (flags : FlagSet) (name value : String) : FlagSet :=
  flags.map (fun e => if e.1 = name then (name, value) else e)

/-- The pflag call `GetString(name)`: the current value of a defined flag, an
error for an undefined one. -/
def FlagSet.GetString (flags : FlagSet) (name : String) : String × Option String :=
  match flags.lookup name with
  | some v => (v, none)
  | none => ("", some ("flag accessed but not defined: " ++ name))

/-- projectorRaysFlag (flags.go lines 33-39).  `defaultPRDir` is the value of
the package variable of that name when the command is built. -/
def projectorRaysFlag (defaultPRDir : String) (flags : FlagSet) : FlagSet :=
  flags.StringP flagPRDir defaultPRDir

/-- The flags of the decompile command after parsing a command line on which
`--projector-rays v` was passed (`some v`) or not passed (`none`). -/
def parsedFlags (defaultPRDir : String) (passed : Option String) : FlagSet :=
  match passed with
  | none => projectorRaysFlag defaultPRDir []
  | some v => (projectorRaysFlag defaultPRDir []).Set flagPRDir v

/-- projectorRaysDir (decompile.go lines 88-106).  `getenv` is `os.Getenv`. -/
def projectorRaysDir (defaultPRDir : String) (getenv : String → String)
    (flags : FlagSet) (a : appState) : String × Option String :=
  let prDir := a.config.PRDirectory
  let tmpPrDir := getenv PROJECTOR_RAYS
  let prDir := if tmpPrDir ≠ "" then tmpPrDir else prDir
  match flags.GetString flagPRDir with
  | (_, some err) => ("", some err)
  | (tmpPrDir, none) =>
    let prDir := if tmpPrDir ≠ defaultPRDir then tmpPrDir else prDir
    (prDir, none)

/-! ## cmd/decompile.go: decompileFile -/

/-- ErrorReport (lines 239-244). -/
structure ErrorReport where
  FileName : String
  Err : Option String
  Cmd : String
  Output : String
deriving DecidableEq, Repr

/-- The zero value `ErrorReport{}`. -/
def ErrorReport.zero : ErrorReport :=
  { FileName := "", Err := none, Cmd := "", Output := "" }

/-- The fields of `exec.Cmd` that the program sets. -/
structure Cmd where
  Path : String
  Args : List String
  Dir : String
deriving DecidableEq, Repr

/-- Go `exec.Command(name, arg...)`: `Args` holds the program name followed
by the arguments. -/
def execCommand (name : String) (arg : List String) : Cmd :=
  { Path := name, Args := name :: arg, Dir := "" }

/-- Go `fmt.Sprintf("%s", xs)` for a slice of strings: the elements separated
by single spaces inside square brackets. -/
def fmtStrings (xs : List String) : String :=
  "[" ++ " ".intercalate xs ++ "]"

/-- The operating system as `decompileFile` sees it. -/
structure ProcessEnv where
  /-- Go `filepath.Join` of two elements. -/
  Join : String → String → String
  /-- Whether `os.IsNotExist` holds of the error of `os.Stat(path)`. -/
  StatNotExist : String → Bool
  /-- The error of `os.Mkdir(path, os.ModePerm)`. -/
  Mkdir : String → Option String
  /-- The result of `cmd.Output()`: the captured standard output and the
  error, non-nil when the process cannot be started or exits non-zero. -/
  Output : Cmd → String × Option String

/-- What `decompileFile` does to the outside world, in order. -/
inductive Effect where
  | stat (path : String)
  | mkdir (path : String)
  | run (cmd : Cmd)
  | logDebug (msg : String) (attrs : List (String × String))
  | logInfo (msg : String) (attrs : List (String × String))
deriving DecidableEq, Repr

/-- Lines 203-212 of `decompileFile`: create the output directory when it
does not exist.  Gives the error of `os.Mkdir`, if it failed, and the effects
performed. -/
def ensureOutputDir (env : ProcessEnv) (outputDir : String) : Option String × List Effect :=
  if env.StatNotExist outputDir then
    match env.Mkdir outputDir with
    | some err => (some err, [.stat outputDir, .mkdir outputDir])
    | none =>
      (none, [.stat outputDir, .mkdir outputDir,
        .logDebug "Created output directory" [("dir_name", outputDir)]])
  else (none, [.stat outputDir])

/-- decompileFile (lines 197-236): the returned `ErrorReport` and the effects
performed, or a panic. -/
def decompileFile (env : ProcessEnv) (a : appState) (inputPath projectorRays file : String) :
    Except Panic (ErrorReport × List Effect) :=
  let parts := stringsSplit file '.'
  match index parts 0 with
  | .error p => .error p
  | .ok fileName =>
    let outputDir := env.Join a.config.ScriptOutputDir fileName
    match ensureOutputDir env outputDir with
    | (some err, fx) =>
      .ok ({ FileName := file, Err := some err, Cmd := "", Output := "" }, fx)
    | (none, fx) =>
      let prArgs := ["decompile", env.Join inputPath file, "--output", outputDir, "--dump-scripts"]
      let cmd := { execCommand projectorRays prArgs with Dir := outputDir }
      match env.Output cmd with
      | (output, some err) =>
        .ok ({ FileName := file, Err := some err,
               Cmd := projectorRays ++ " " ++ fmtStrings prArgs, Output := output },
             fx ++ [.run cmd])
      | (output, none) =>
        .ok (ErrorReport.zero, fx ++ [.run cmd, .logInfo "Decompiled file" [("output", output)]])

/-! ## cmd/decompile.go: decompileFiles

The goroutines of `decompileFiles` are modelled by a transition system.  A
state records where the main goroutine is, which workers are running, the
`WaitGroup` counter and the contents of the buffered channel.  A worker
takes two steps: in the first its call of `decompileFile` returns and, when
the `Err` of the report is non-nil, the report is sent on `errChan`; in the
second the goroutine returns and its deferred `wg.Done()` runs.  The order of
the first steps is the order in which the jobs complete. -/

/-- The state of one call of `decompileFiles`. -/
structure Dispatch where
  /-- The names the `for _, name := range fileNames` loop has yet to visit. -/
  toSpawn : List String
  /-- The files of the worker goroutines whose `decompileFile` has not yet
  returned. -/
  running : List String
  /-- The number of worker goroutines past line 164 that have not yet run
  their deferred `wg.Done()`. -/
  finishing : Nat
  /-- The counter of `wg`. -/
  wg : Nat
  /-- The capacity of `errChan`. -/
  capacity : Nat
  /-- The reports buffered in `errChan`, oldest first. -/
  errChan : List ErrorReport
  /-- Whether `errChan` has been closed. -/
  closed : Bool
  /-- The slice `errors` of the main goroutine. -/
  errors : List ErrorReport
  /-- Whether the main goroutine has left the `range errChan` loop. -/
  returned : Bool
deriving DecidableEq, Repr

/-- The steps the goroutines can take. -/
inductive Step where
  /-- Main: one iteration of the spawning loop (lines 154-167). -/
  | spawn
  /-- The `i`-th running worker: `decompileFile` returns and the report is
  sent when its `Err` is non-nil (lines 162-164). -/
  | worker (i : Nat)
  /-- A worker past line 164 returns and its deferred `wg.Done()` runs
  (line 160). -/
  | done
  /-- The closer goroutine passes `wg.Wait()` and closes `errChan` (lines 169-172). -/
  | close
  /-- Main: one iteration of `for err := range errChan` (lines 175-177). -/
  | receive
  /-- Main: the `range` loop ends, `errChan` being closed and drained. -/
  | leave
deriving DecidableEq, Repr

/-- The state at entry of `decompileFiles` (lines 151-152). -/
def Dispatch.init (fileNames : List String) : Dispatch :=
  { toSpawn := fileNames, running := [], finishing := 0, wg := 0,
    capacity := fileNames.length,
    errChan := [], closed := false, errors := [], returned := false }

/-- One step from state `s`; `none` when the step is not enabled in `s` (the
goroutine does not exist yet or is blocked).  `outcome file` is the report
that `decompileFile` returns for `file`. -/
def Dispatch.step (outcome : String → ErrorReport) (s : Dispatch) : Step → Option Dispatch
  | .spawn =>
    match s.toSpawn with
    | [] => none
    | name :: rest =>
      some { s with toSpawn := rest, wg := s.wg + 1, running := s.running ++ [name] }
  | .worker i =>
    match s.running.get? i with
    | none => none
    | some file =>
      let errRep := outcome file
      if errRep.Err ≠ none then
        if s.errChan.length < s.capacity then
          some { s with running := s.running.eraseIdx i, errChan := s.errChan ++ [errRep],
                        finishing := s.finishing + 1 }
        else none
      else some { s with running := s.running.eraseIdx i, finishing := s.finishing + 1 }
  | .done =>
    if 0 < s.finishing then some { s with finishing := s.finishing - 1, wg := s.wg - 1 }
    else none
  | .close =>
    if s.toSpawn = [] ∧ s.wg = 0 ∧ s.closed = false then some { s with closed := true }
    else none
  | .receive =>
    if s.toSpawn = [] ∧ s.returned = false then
      match s.errChan with
      | [] => none
      | err :: rest => some { s with errChan := rest, errors := s.errors ++ [err] }
    else none
  | .leave =>
    if s.toSpawn = [] ∧ s.errChan = [] ∧ s.closed = true ∧ s.returned = false then
      some { s with returned := true }
    else none

/-- Follow a schedule: take its steps in order, passing over a step that is
not enabled when its turn comes. -/
def Dispatch.follow (outcome : String → ErrorReport) : List Step → Dispatch → Dispatch
  | [], s => s
  | st :: sched, s =>
    match s.step outcome st with
    | none => Dispatch.follow outcome sched s
    | some s' => Dispatch.follow outcome sched s'

/-- The step a fixed fair scheduler takes in `s`, when the schedule given has
run out. -/
def Dispatch.next (s : Dispatch) : Step :=
  if s.toSpawn ≠ [] then .spawn
  else if s.running ≠ [] then .worker 0
  else if 0 < s.finishing then .done
  else if s.errChan ≠ [] then .receive
  else if s.closed = false then .close
  else .leave

/-- Run on until the main goroutine leaves its loop or nothing can move, for
at most `fuel` steps. -/
def Dispatch.finish (outcome : String → ErrorReport) : Nat → Dispatch → Dispatch
  | 0, s => s
  | fuel + 1, s =>
    if s.returned then s
    else
      match s.step outcome s.next with
      | none => s
      | some s' => Dispatch.finish outcome fuel s'

/-- One record of the structured log. -/
structure LogRecord where
  level : String
  msg : String
  attrs : List (String × String)
deriving DecidableEq, Repr

/-- What a call of `decompileFiles` that returns has produced. -/
structure BatchResult where
  /-- The returned `error`. -/
  ret : Option String
  /-- The slice `errors` when the function returns. -/
  errors : List ErrorReport
  /-- The records written to the log (lines 179-190). -/
  log : List LogRecord
deriving DecidableEq, Repr

/-- The summary line of line 179. -/
def summaryLine (nErrors nFiles : Nat) : LogRecord :=
  { level := "INFO",
    msg := toString nErrors ++ " errors were encountered while decompiling " ++
      toString nFiles ++ " files",
    attrs := [] }

/-- The record logged for one collected report (lines 183-188). -/
def errorLine (errRep : ErrorReport) : LogRecord :=
  { level := "ERROR",
    msg := "Error returned when attempting to decompile file",
    attrs := [("file_name", errRep.FileName), ("error", errRep.Err.getD "<nil>"),
      ("cmd", errRep.Cmd), ("output", errRep.Output)] }

/-- decompileFiles (lines 150-193) under the schedule `sched` of its
goroutines, with `outcome file` the report `decompileFile` returns for
`file`.  `none` when the call never returns. -/
def decompileFiles (outcome : String → ErrorReport) (sched : List Step)
    (fileNames : List String) : Option BatchResult :=
  let s := Dispatch.finish outcome (4 * fileNames.length + 2)
    (Dispatch.follow outcome sched (Dispatch.init fileNames))
  if s.returned then
    some { ret := none, errors := s.errors,
           log := summaryLine s.errors.length fileNames.length :: s.errors.map errorLine }
  else none

/-- The command of a `run` effect. -/
def Effect.command : Effect → Option Cmd
  | .run cmd => some cmd
  | _ => none

/-- The commands run among a sequence of effects, in order. -/
def commandsRun (fx : List Effect) : List Cmd :=
  fx.filterMap Effect.command

/-- A directory reader whose listing succeeds with the given names. -/
def listingOf (fileNames : List String) : DirReader :=
  { Open := fun _ => none, Readdirnames := fun _ => (fileNames, none) }

/-- An application state with the given output root. -/
def stateWithOutput (root : String) : appState :=
  { homePath := "/home/u/.shockrays", debug := false,
    config := { PRDirectory := "/cfg/pr", ScriptOutputDir := root, PRBinName := "projectorrays" } }

/-- An environment that joins paths with "/", in which every output
directory exists and every process fails with exit status 1 after printing
"boom". -/
def failingEnv : ProcessEnv :=
  { Join := fun a b => a ++ "/" ++ b,
    StatNotExist := fun _ => false,
    Mkdir := fun _ => none,
    Output := fun _ => ("boom", some "exit status 1") }

/-- An environment in which the variable PROJECTOR_RAYS has the given value
and no other variable is set. -/
def envWith (value : String) : String → String :=
  fun name => if name = PROJECTOR_RAYS then value else ""

/-- The output directory as the specification words it: the output root
joined with the part of the file name before its first '.'. -/
def specOutputDir (env : ProcessEnv) (a : appState) (file : String) : String :=
  env.Join a.config.ScriptOutputDir (beforeFirstDot file)

/-- The invocation as the specification words it: the binary with the five
arguments `decompile <input file> --output <output dir> --dump-scripts`, its
working directory the output directory. -/
def specInvocation (env : ProcessEnv) (a : appState) (inputPath projectorRays file : String) :
    Cmd :=
  { Path := projectorRays,
    Args := [projectorRays, "decompile", env.Join inputPath file, "--output",
      specOutputDir env a file, "--dump-scripts"],
    Dir := specOutputDir env a file }

/-- The reports of the workers that are running or still to be spawned and
that will be sent on `errChan`. -/
def Dispatch.pending (outcome : String → ErrorReport) (s : Dispatch) : List ErrorReport :=
  ((s.running ++ s.toSpawn).map outcome).filter (fun r => decide (r.Err ≠ none))

/-- The reports that the jobs of a batch return with a non-nil `Err`, in the
order of the batch. -/
def failures (outcome : String → ErrorReport) (fileNames : List String) : List ErrorReport :=
  (fileNames.map outcome).filter (fun r => decide (r.Err ≠ none))

/-- What holds of every state reached from the start of `decompileFiles`. -/
structure Dispatch.Inv (outcome : String → ErrorReport) (fileNames : List String)
    (s : Dispatch) : Prop where
  /-- The `WaitGroup` counts the workers that have not run `wg.Done()`. -/
  wg_eq : s.wg = s.running.length + s.finishing
  /-- The channel has room for every report still to come. -/
  room : s.errChan.length + s.running.length + s.toSpawn.length ≤ s.capacity
  /-- The channel is closed only after every worker has finished. -/
  closed_imp : s.closed = true → s.running = [] ∧ s.toSpawn = []
  /-- Main leaves its loop only on a closed and drained channel. -/
  returned_imp : s.returned = true → s.errChan = [] ∧ s.closed = true
  /-- Every failure report is collected, buffered or still to come, once. -/
  perm : (s.errors ++ (s.errChan ++ s.pending outcome)).Perm (failures outcome fileNames)

/-- A bound on the number of steps left. -/
def Dispatch.size (s : Dispatch) : Nat :=
  4 * s.toSpawn.length + 3 * s.running.length + s.finishing + s.errChan.length +
    (if s.closed then 0 else 1) + (if s.returned then 0 else 1)

/-- A per-file outcome in which exactly the files b.dir and c.dir fail. -/
def sampleOutcome (file : String) : ErrorReport :=
  if file = "b.dir" ∨ file = "c.dir" then
    { FileName := file, Err := some "exit status 1", Cmd := "", Output := "" }
  else ErrorReport.zero

/-- The path of a `stat` effect. -/
def Effect.statPath : Effect → Option String
  | .stat path => some path
  | _ => none

/-- The output directory a run of `decompileFile` computed: the path it
passed to `os.Stat` at line 203, read off the effects of the run. -/
def outputDirOf (fx : List Effect) : Option String :=
  (fx.filterMap Effect.statPath).head?

/-! ## decompileFiles over a shared file system

In the transition system above the report of a job is given.  Here the calls
of `os.Stat`, `os.Mkdir` and `cmd.Output` inside `decompileFile` are steps
of their own and act on one file system, shared by all workers: the set of
directories that exist.  `os.Stat` finds a directory exactly when it is in
the set; `os.Mkdir` fails on a directory that is in the set and adds it
otherwise. -/

/-- Where a worker goroutine stands inside `decompileFile`. -/
inductive Phase where
  /-- Entering `decompileFile`, before `os.Stat` (lines 198-203). -/
  | start
  /-- After `os.Stat` found no directory, before `os.Mkdir` (line 204). -/
  | mkdir (outputDir : String)
  /-- Before the command is built and run (lines 214-221). -/
  | output (outputDir : String)
  /-- `decompileFile` has returned `errRep`, before the test of line 162. -/
  | send (errRep : ErrorReport)
  /-- The goroutine has panicked. -/
  | panicked
deriving DecidableEq, Repr

/-- The error of `os.Mkdir` on a directory that exists. -/
def mkdirExists (path : String) : String :=
  "mkdir " ++ path ++ ": file exists"

/-- One call of a worker inside `decompileFile` for `file`, on the file
system `dirs`: the file system and the phase after it.  `join` is
`filepath.Join` and `output` the result of `cmd.Output()`. -/
def advance (join : String → String → String) (output : Cmd → String × Option String)
    (a : appState) (inputPath projectorRays file : String) (dirs : List String) :
    Phase → List String × Phase
  | .start =>
    match index (stringsSplit file '.') 0 with
    | .error _ => (dirs, .panicked)
    | .ok fileName =>
      let outputDir := join a.config.ScriptOutputDir fileName
      if outputDir ∉ dirs then (dirs, .mkdir outputDir) else (dirs, .output outputDir)
  | .mkdir outputDir =>
    if outputDir ∈ dirs then
      (dirs, .send { FileName := file, Err := some (mkdirExists outputDir), Cmd := "",
                     Output := "" })
    else (outputDir :: dirs, .output outputDir)
  | .output outputDir =>
    let prArgs := ["decompile", join inputPath file, "--output", outputDir, "--dump-scripts"]
    let cmd := { execCommand projectorRays prArgs with Dir := outputDir }
    match output cmd with
    | (out, some err) =>
      (dirs, .send { FileName := file, Err := some err,
                     Cmd := projectorRays ++ " " ++ fmtStrings prArgs, Output := out })
    | (_, none) => (dirs, .send ErrorReport.zero)
  | .send errRep => (dirs, .send errRep)
  | .panicked => (dirs, .panicked)

/-- The environment of `decompileFile` that the file system `dirs` gives. -/
def envOf (join : String → String → String) (output : Cmd → String × Option String)
    (dirs : List String) : ProcessEnv :=
  { Join := join,
    StatNotExist := fun path => decide (path ∉ dirs),
    Mkdir := fun path => if path ∈ dirs then some (mkdirExists path) else none,
    Output := output }

/-- A worker goroutine inside `decompileFile`. -/
structure Worker where
  file : String
  phase : Phase
deriving DecidableEq, Repr

/-- The state of one call of `decompileFiles` with the file system. -/
structure Shared where
  /-- The directories that exist. -/
  dirs : List String
  /-- The names the spawning loop has yet to visit. -/
  toSpawn : List String
  /-- The worker goroutines that have not passed line 164. -/
  workers : List Worker
  /-- The number of workers past line 164 that have not run `wg.Done()`. -/
  finishing : Nat
  /-- The counter of `wg`. -/
  wg : Nat
  /-- The capacity of `errChan`. -/
  capacity : Nat
  /-- The reports buffered in `errChan`, oldest first. -/
  errChan : List ErrorReport
  /-- Whether `errChan` has been closed. -/
  closed : Bool
  /-- The slice `errors` of the main goroutine. -/
  errors : List ErrorReport
  /-- Whether the main goroutine has left the `range errChan` loop. -/
  returned : Bool
deriving DecidableEq, Repr

/-- The state at entry of `decompileFiles` on the file system `dirs`. -/
def Shared.init (dirs fileNames : List String) : Shared :=
  { dirs := dirs, toSpawn := fileNames, workers := [], finishing := 0, wg := 0,
    capacity := fileNames.length, errChan := [], closed := false, errors := [],
    returned := false }

/-- One step from state `s`; `none` when the step is not enabled.  The step
`worker i` is the next call of the `i`-th worker inside `decompileFile` or,
once `decompileFile` has returned, the test and the send of lines 162-164. -/
def Shared.step (join : String → String → String) (output : Cmd → String × Option String)
    (a : appState) (inputPath projectorRays : String) (s : Shared) : Step → Option Shared
  | .spawn =>
    match s.toSpawn with
    | [] => none
    | name :: rest =>
      some { s with toSpawn := rest, wg := s.wg + 1,
                    workers := s.workers ++ [{ file := name, phase := .start }] }
  | .worker i =>
    match s.workers.get? i with
    | none => none
    | some w =>
      match w.phase with
      | .panicked => none
      | .send errRep =>
        if errRep.Err ≠ none then
          if s.errChan.length < s.capacity then
            some { s with workers := s.workers.eraseIdx i, errChan := s.errChan ++ [errRep],
                          finishing := s.finishing + 1 }
          else none
        else some { s with workers := s.workers.eraseIdx i, finishing := s.finishing + 1 }
      | phase =>
        let next := advance join output a inputPath projectorRays w.file s.dirs phase
        some { s with dirs := next.1,
                      workers := s.workers.set i { file := w.file, phase := next.2 } }
  | .done =>
    if 0 < s.finishing then some { s with finishing := s.finishing - 1, wg := s.wg - 1 }
    else none
  | .close =>
    if s.toSpawn = [] ∧ s.wg = 0 ∧ s.closed = false then some { s with closed := true }
    else none
  | .receive =>
    if s.toSpawn = [] ∧ s.returned = false then
      match s.errChan with
      | [] => none
      | err :: rest => some { s with errChan := rest, errors := s.errors ++ [err] }
    else none
  | .leave =>
    if s.toSpawn = [] ∧ s.errChan = [] ∧ s.closed = true ∧ s.returned = false then
      some { s with returned := true }
    else none

/-- Take the steps of a schedule in order; `none` when one of them is not
enabled at its turn, so that a result is an interleaving that can occur. -/
def Shared.exec (join : String → String → String) (output : Cmd → String × Option String)
    (a : appState) (inputPath projectorRays : String) : List Step → Shared → Option Shared
  | [], s => some s
  | st :: sched, s =>
    match s.step join output a inputPath projectorRays st with
    | none => none
    | some s' => Shared.exec join output a inputPath projectorRays sched s'

/-- The reports `decompileFiles` has collected when it returns at the end of
the interleaving `sched`, started on the file system `dirs`; `none` when
`sched` is not an interleaving that ends with the return. -/
def decompileFilesOn (join : String → String → String)
    (output : Cmd → String × Option String) (a : appState)
    (inputPath projectorRays : String) (dirs : List String) (sched : List Step)
    (fileNames : List String) : Option (List ErrorReport) :=
  match Shared.exec join output a inputPath projectorRays sched (Shared.init dirs fileNames) with
  | none => none
  | some s => if s.returned then some s.errors else none

/-- Joining two path elements with "/". -/
def joinSlash (dir name : String) : String :=
  dir ++ "/" ++ name

/-- A decompiler that always exits with status zero and prints nothing. -/
def alwaysZero : Cmd → String × Option String :=
  fun _ => ("", none)

/-- The interleaving in which the worker of the first file runs to its end
before the worker of the second file starts. -/
def oneAfterTheOther : List Step :=
  [.spawn, .spawn, .worker 0, .worker 0, .worker 0, .worker 0,
   .worker 0, .worker 0, .worker 0, .done, .done, .close, .leave]

/-- The interleaving in which both workers call `os.Stat` before either calls
`os.Mkdir`, and the worker of the first file calls `os.Mkdir` first. -/
def bothStatFirst : List Step :=
  [.spawn, .spawn, .worker 0, .worker 1, .worker 0, .worker 1, .worker 0, .worker 0,
   .worker 0, .done, .done, .close, .receive, .leave]

/-- As `bothStatFirst`, with the worker of the second file calling `os.Mkdir`
first. -/
def bothStatSecond : List Step :=
  [.spawn, .spawn, .worker 0, .worker 1, .worker 1, .worker 0, .worker 1, .worker 1,
   .worker 0, .done, .done, .close, .receive, .leave]

/-! ## Facts about splitting -/

theorem splitChars_fst (sep : Char) (cs : List Char) :
    (splitChars sep cs).1 = cs.takeWhile (fun c => c != sep) := by
  induction cs with
  | nil => rfl
  | cons c cs ih =>
    by_cases h : c = sep
    · simp [splitChars, h]
    · simp [splitChars, h, ih]

theorem splitChars_snd (sep : Char) (cs : List Char) :
    (splitChars sep cs).2 =
      match cs.dropWhile (fun c => c != sep) with
      | [] => []
      | _ :: rest => (splitChars sep rest).1 :: (splitChars sep rest).2 := by
  induction cs with
  | nil => rfl
  | cons c cs ih =>
    by_cases h : c = sep
    · simp [splitChars, h]
    · simp [splitChars, h, ih]

theorem dropWhile_ne_of_mem (sep : Char) (cs : List Char) (h : sep ∈ cs) :
    ∃ rest, cs.dropWhile (fun c => c != sep) = sep :: rest := by
  induction cs with
  | nil => simp at h
  | cons c cs ih =>
    by_cases hc : c = sep
    · exact ⟨cs, by simp [hc]⟩
    · have hmem : sep ∈ cs := by
        rcases List.mem_cons.mp h with h1 | h1
        · exact absurd h1.symm hc
        · exact h1
      obtain ⟨rest, hrest⟩ := ih hmem
      exact ⟨rest, by simp [hc, hrest]⟩

theorem dropWhile_ne_of_not_mem (sep : Char) (cs : List Char) (h : sep ∉ cs) :
    cs.dropWhile (fun c => c != sep) = [] := by
  induction cs with
  | nil => rfl
  | cons c cs ih =>
    have hc : c ≠ sep := fun e => h (by simp [e])
    have hmem : sep ∉ cs := fun e => h (List.mem_cons_of_mem _ e)
    simp [hc, ih hmem]

/-- No part produced by splitting contains the separator. -/
theorem splitChars_no_sep (sep : Char) (cs : List Char) :
    sep ∉ (splitChars sep cs).1 ∧ ∀ p ∈ (splitChars sep cs).2, sep ∉ p := by
  induction cs with
  | nil => simp [splitChars]
  | cons c cs ih =>
    by_cases h : c = sep
    · simp only [splitChars, h, if_true]
      refine ⟨by simp, ?_⟩
      intro p hp
      rcases List.mem_cons.mp hp with hp | hp
      · exact hp ▸ ih.1
      · exact ih.2 p hp
    · simp only [splitChars, h, if_false]
      refine ⟨?_, ih.2⟩
      intro hm
      rcases List.mem_cons.mp hm with hm | hm
      · exact h hm.symm
      · exact ih.1 hm

/-- Joining the parts with the separator gives the string back. -/
theorem splitChars_join (sep : Char) (cs : List Char) :
    List.intercalate [sep] ((splitChars sep cs).1 :: (splitChars sep cs).2) = cs := by
  induction cs with
  | nil => simp [splitChars, List.intercalate]
  | cons c cs ih =>
    by_cases h : c = sep
    · simp only [splitChars, h, if_true]
      simp only [List.intercalate] at ih ⊢
      simp [List.intersperse, ih]
    · simp only [splitChars, h, if_false]
      simp only [List.intercalate] at ih ⊢
      cases h2 : (splitChars sep cs).2 with
      | nil => rw [h2] at ih; simpa using ih
      | cons q qs => rw [h2] at ih; simpa [List.intersperse] using ih

theorem stringsSplit_length_pos (s : String) (sep : Char) :
    0 < (stringsSplit s sep).length := by
  simp [stringsSplit]

theorem stringsSplit_head (s : String) (sep : Char) :
    index (stringsSplit s sep) 0 =
      .ok (String.mk (s.data.takeWhile (fun c => c != sep))) := by
  simp [stringsSplit, index, splitChars_fst]

theorem stringsSplit_second (s : String) (sep : Char) (h : sep ∈ s.data) :
    ∃ rest, s.data.dropWhile (fun c => c != sep) = sep :: rest ∧
      2 ≤ (stringsSplit s sep).length ∧
      index (stringsSplit s sep) 1 =
        .ok (String.mk (rest.takeWhile (fun c => c != sep))) := by
  obtain ⟨rest, hrest⟩ := dropWhile_ne_of_mem sep s.data h
  refine ⟨rest, hrest, ?_, ?_⟩
  · simp [stringsSplit, splitChars_snd sep s.data, hrest]
  · simp [stringsSplit, index, splitChars_snd sep s.data, hrest, splitChars_fst]

theorem ValidFileExtension_eq (ext : String) :
    ValidFileExtension ext = knownExtensions.contains ext := by
  unfold ValidFileExtension knownExtensions cct cxt dcr dxr dir cst
  by_cases h : ext = "cct" ∨ ext = "cxt" ∨ ext = "dcr" ∨ ext = "dxr" ∨ ext = "dir" ∨ ext = "cst"
  · rw [if_pos h]; symm; simpa using h
  · rw [if_neg h]; symm; simpa using h

/-- The loop body never panics and computes the specification's predicate. -/
theorem keepName_eq (name : String) : keepName name = .ok (isSupported name) := by
  by_cases h : '.' ∈ name.data
  · obtain ⟨rest, hrest, _, hidx⟩ := stringsSplit_second name '.' h
    simp [keepName, stringsContains, h, hidx, isSupported, segmentAfterFirstDot, hrest,
      ValidFileExtension_eq]
  · simp [keepName, stringsContains, h, isSupported, segmentAfterFirstDot,
      dropWhile_ne_of_not_mem '.' name.data h]

theorem filterLoop_eq (names validFiles : List String) :
    filterLoop names validFiles =
      .ok (validFiles ++ names.filter (fun n => decide (keepName n = .ok true))) := by
  induction names generalizing validFiles with
  | nil => simp [filterLoop]
  | cons n ns ih =>
    cases hb : isSupported n with
    | true => simp [filterLoop, keepName_eq, hb, ih]
    | false => simp [filterLoop, keepName_eq, hb, ih]

/-! ## The scanner -/

/-- C1: the loop body of `validFileNames` accepts a name if and only if the
name contains a '.' and the segment between its first '.' and its next '.'
(or the end of the name) is one of the six known extensions, compared
case-sensitively; it rejects every other name without panicking.  Names
without '.' are rejected, "a.dcr.bak" is accepted, "a.tar.dcr" and "a.DCR"
are rejected. -/
theorem keepName_accepts_iff (name : String) :
    (keepName name = .ok true ↔
      '.' ∈ name.data ∧
        ∃ seg, segmentAfterFirstDot name = some seg ∧
          seg ∈ ["cct", "cxt", "dcr", "dxr", "dir", "cst"]) ∧
    (keepName name = .ok true ∨ keepName name = .ok false) ∧
    ('.' ∉ name.data → keepName name = .ok false) ∧
    keepName "a.dcr.bak" = .ok true ∧
    keepName "a.tar.dcr" = .ok false ∧
    keepName "a.DCR" = .ok false := by
  refine ⟨?_, ?_, ?_, by decide, by decide, by decide⟩
  · rw [keepName_eq]
    by_cases h : '.' ∈ name.data
    · obtain ⟨rest, hrest⟩ := dropWhile_ne_of_mem '.' name.data h
      simp [isSupported, segmentAfterFirstDot, hrest, h, knownExtensions]
    · simp [isSupported, segmentAfterFirstDot, dropWhile_ne_of_not_mem '.' name.data h, h]
  · rw [keepName_eq]
    cases isSupported name <;> simp
  · intro h
    rw [keepName_eq]
    simp [isSupported, segmentAfterFirstDot, dropWhile_ne_of_not_mem '.' name.data h]

theorem keepName_accepts_iff_witness :
    '.' ∉ "noext".data ∧ keepName "noext" = .ok false :=
  ⟨by decide, (keepName_accepts_iff "noext").2.2.1 (by decide)⟩

/-- C2: when the directory listing succeeds, `validFileNames` returns an
error and no names for an empty listing, and returns no names and a nil
error for a non-empty listing none of whose entries passes the extension
check. -/
theorem validFileNames_empty_cases (fs : DirReader) (inputPath : String)
    (fileNames : List String) (hopen : fs.Open inputPath = none)
    (hread : fs.Readdirnames inputPath = (fileNames, none)) :
    (fileNames = [] →
      validFileNames fs inputPath = .ok ([], some (emptyInputError inputPath))) ∧
    (fileNames ≠ [] → (∀ name ∈ fileNames, keepName name = .ok false) →
      validFileNames fs inputPath = .ok ([], none)) := by
  constructor
  · intro h
    subst h
    simp [validFileNames, hopen, hread]
  · intro hne hall
    have hlen : fileNames.length ≠ 0 := fun h => hne (List.length_eq_zero.mp h)
    have hfilter : fileNames.filter (fun n => decide (keepName n = .ok true)) = [] := by
      rw [List.filter_eq_nil_iff]
      intro n hn
      simp [hall n hn]
    simp [validFileNames, hopen, hread, hlen, filterLoop_eq, hfilter]

theorem validFileNames_empty_cases_witness :
    validFileNames (listingOf []) "in" = .ok ([], some (emptyInputError "in")) ∧
    validFileNames (listingOf ["readme.txt", "noext"]) "in" = .ok ([], none) :=
  ⟨(validFileNames_empty_cases (listingOf []) "in" [] rfl rfl).1 rfl,
   (validFileNames_empty_cases (listingOf ["readme.txt", "noext"]) "in"
      ["readme.txt", "noext"] rfl rfl).2 (by decide) (by decide)⟩

/-- C3: for a non-empty listing, `validFileNames` returns the listing
filtered by the extension check, with a nil error: a name occurs in the
result as often as it occurs in the listing when it is accepted and not at
all when it is rejected, and the result keeps the order of the listing.  The
listing a.dir, b.cst, readme.txt, noext gives a.dir, b.cst. -/
theorem validFileNames_eq_filter (fs : DirReader) (inputPath : String)
    (fileNames : List String) (hopen : fs.Open inputPath = none)
    (hread : fs.Readdirnames inputPath = (fileNames, none)) (hne : fileNames ≠ []) :
    ∃ validFiles, validFileNames fs inputPath = .ok (validFiles, none) ∧
      validFiles = fileNames.filter (fun n => decide (keepName n = .ok true)) ∧
      validFiles.Sublist fileNames ∧
      (∀ name, keepName name = .ok true → validFiles.count name = fileNames.count name) ∧
      (∀ name, keepName name = .ok false → name ∉ validFiles) ∧
      (fileNames = ["a.dir", "b.cst", "readme.txt", "noext"] →
        validFiles = ["a.dir", "b.cst"]) := by
  have hlen : fileNames.length ≠ 0 := fun h => hne (List.length_eq_zero.mp h)
  refine ⟨_, ?_, rfl, List.filter_sublist _, ?_, ?_, ?_⟩
  · simp [validFileNames, hopen, hread, hlen, filterLoop_eq]
  · intro name hk
    rw [List.count_filter]
    simpa using hk
  · intro name hk hmem
    have := (List.mem_filter.mp hmem).2
    simp [hk] at this
  · intro h
    subst h
    decide

theorem validFileNames_eq_filter_witness :
    ∃ validFiles,
      validFileNames (listingOf ["a.dir", "b.cst", "readme.txt", "noext"]) "in" =
        .ok (validFiles, none) ∧
      validFiles = ["a.dir", "b.cst"] := by
  obtain ⟨validFiles, h, _, _, _, _, hex⟩ :=
    validFileNames_eq_filter (listingOf ["a.dir", "b.cst", "readme.txt", "noext"]) "in"
      ["a.dir", "b.cst", "readme.txt", "noext"] rfl rfl (by decide)
  exact ⟨validFiles, h, hex rfl⟩

/-! ## One job -/

theorem decompileFile_unfold (env : ProcessEnv) (a : appState)
    (inputPath projectorRays file : String) :
    decompileFile env a inputPath projectorRays file =
      match ensureOutputDir env (specOutputDir env a file) with
      | (some err, fx) =>
        .ok ({ FileName := file, Err := some err, Cmd := "", Output := "" }, fx)
      | (none, fx) =>
        match env.Output (specInvocation env a inputPath projectorRays file) with
        | (output, some err) =>
          .ok ({ FileName := file, Err := some err,
                 Cmd := projectorRays ++ " " ++
                   fmtStrings ["decompile", env.Join inputPath file, "--output",
                     specOutputDir env a file, "--dump-scripts"],
                 Output := output },
               fx ++ [.run (specInvocation env a inputPath projectorRays file)])
        | (output, none) =>
          .ok (ErrorReport.zero,
            fx ++ [.run (specInvocation env a inputPath projectorRays file),
              .logInfo "Decompiled file" [("output", output)]]) := by
  simp only [decompileFile, stringsSplit_head, specOutputDir, specInvocation, beforeFirstDot,
    execCommand]

theorem decompileFile_ok (env : ProcessEnv) (a : appState)
    (inputPath projectorRays file : String) :
    ∃ r, decompileFile env a inputPath projectorRays file = .ok r := by
  rw [decompileFile_unfold]
  split
  · exact ⟨_, rfl⟩
  · split
    · exact ⟨_, rfl⟩
    · exact ⟨_, rfl⟩

theorem commandsRun_ensureOutputDir (env : ProcessEnv) (outputDir : String) :
    commandsRun (ensureOutputDir env outputDir).2 = [] := by
  unfold ensureOutputDir
  split
  · split <;> rfl
  · rfl

theorem ensureOutputDir_fst (env : ProcessEnv) (outputDir : String) :
    (ensureOutputDir env outputDir).1 =
      if env.StatNotExist outputDir = true then env.Mkdir outputDir else none := by
  unfold ensureOutputDir
  split
  · split <;> simp_all
  · rfl

/-- C6: `decompileFile` never panics, and the processes it starts are: none
when the output directory is missing and cannot be created, and otherwise
exactly one, the binary with the five arguments `decompile`,
`join(inputPath, file)`, `--output`, the output directory, `--dump-scripts`
in that order and the output directory as working directory, where the
output directory is the output root joined with the part of the file name
before its first '.'. -/
theorem decompileFile_invocation (env : ProcessEnv) (a : appState)
    (inputPath projectorRays file : String) :
    ∃ r fx, decompileFile env a inputPath projectorRays file = .ok (r, fx) ∧
      commandsRun fx =
        (if env.StatNotExist (env.Join a.config.ScriptOutputDir (beforeFirstDot file)) = true ∧
            env.Mkdir (env.Join a.config.ScriptOutputDir (beforeFirstDot file)) ≠ none
         then []
         else [{ Path := projectorRays,
                 Args := [projectorRays, "decompile", env.Join inputPath file, "--output",
                   env.Join a.config.ScriptOutputDir (beforeFirstDot file), "--dump-scripts"],
                 Dir := env.Join a.config.ScriptOutputDir (beforeFirstDot file) }]) := by
  rw [decompileFile_unfold]
  have h1 := ensureOutputDir_fst env (specOutputDir env a file)
  have h2 := commandsRun_ensureOutputDir env (specOutputDir env a file)
  rcases hE : ensureOutputDir env (specOutputDir env a file) with ⟨e, fx⟩
  rw [hE] at h1 h2
  simp only at h1 h2
  rcases hO : env.Output (specInvocation env a inputPath projectorRays file) with ⟨output, oerr⟩
  have hcond : (env.StatNotExist (env.Join a.config.ScriptOutputDir (beforeFirstDot file)) = true ∧
      env.Mkdir (env.Join a.config.ScriptOutputDir (beforeFirstDot file)) ≠ none) ↔ e ≠ none := by
    rw [h1]
    simp only [specOutputDir]
    by_cases hs : env.StatNotExist (env.Join a.config.ScriptOutputDir (beforeFirstDot file)) = true
    · simp [hs]
    · simp [hs]
  cases e with
  | some err =>
    refine ⟨_, _, rfl, ?_⟩
    rw [if_pos (hcond.mpr (by simp))]
    exact h2
  | none =>
    have hneg : ¬ (env.StatNotExist (env.Join a.config.ScriptOutputDir (beforeFirstDot file)) = true ∧
        env.Mkdir (env.Join a.config.ScriptOutputDir (beforeFirstDot file)) ≠ none) :=
      fun h => (hcond.mp h) rfl
    cases oerr with
    | some err =>
      refine ⟨_, _, rfl, ?_⟩
      rw [if_neg hneg]
      simp only [commandsRun, List.filterMap_append] at h2 ⊢
      rw [h2]
      rfl
    | none =>
      refine ⟨_, _, rfl, ?_⟩
      rw [if_neg hneg]
      simp only [commandsRun, List.filterMap_append] at h2 ⊢
      rw [h2]
      rfl

/-- C8, as stated, fails: for a job whose process exits with status 1 the
`Cmd` of the report is not the binary and its arguments joined by spaces; the
arguments stand inside square brackets. -/
theorem decompileFile_cmd_not_plain_join :
    ∃ r fx, decompileFile failingEnv (stateWithOutput "out") "in" "pr" "a.dir" = .ok (r, fx) ∧
      r.Err = some "exit status 1" ∧
      r.Cmd = "pr [decompile in/a.dir --output out/a --dump-scripts]" ∧
      r.Cmd ≠ "pr decompile in/a.dir --output out/a --dump-scripts" :=
  ⟨_, _, rfl, by decide, by decide, by decide⟩

/-- C8, amended: for a job whose output directory exists or is created, when
the process fails to start or exits non-zero the report has the job's file
name, the non-nil error, the captured output, and as `Cmd` the binary path,
a space, and the five arguments separated by single spaces inside square
brackets; when the process exits zero the report has a nil `Err`. -/
theorem decompileFile_report (env : ProcessEnv) (a : appState)
    (inputPath projectorRays file : String)
    (hdir : env.StatNotExist (specOutputDir env a file) = false ∨
      env.Mkdir (specOutputDir env a file) = none) :
    ∃ r fx, decompileFile env a inputPath projectorRays file = .ok (r, fx) ∧
      (∀ err, (env.Output (specInvocation env a inputPath projectorRays file)).2 = some err →
        r = { FileName := file, Err := some err,
              Cmd := projectorRays ++ " [decompile " ++ env.Join inputPath file ++
                " --output " ++ specOutputDir env a file ++ " --dump-scripts]",
              Output := (env.Output (specInvocation env a inputPath projectorRays file)).1 }) ∧
      ((env.Output (specInvocation env a inputPath projectorRays file)).2 = none →
        r.Err = none) := by
  rw [decompileFile_unfold]
  have h1 := ensureOutputDir_fst env (specOutputDir env a file)
  have hnone : (ensureOutputDir env (specOutputDir env a file)).1 = none := by
    rw [h1]
    rcases hdir with h | h
    · simp [h]
    · simp [h]
  rcases hE : ensureOutputDir env (specOutputDir env a file) with ⟨e, fx⟩
  rw [hE] at hnone
  simp only at hnone
  subst hnone
  rcases hO : env.Output (specInvocation env a inputPath projectorRays file) with ⟨output, oerr⟩
  cases oerr with
  | some err =>
    refine ⟨_, _, rfl, ?_, by simp⟩
    intro err' herr
    simp only [Option.some.injEq] at herr
    subst herr
    simp only [fmtStrings, String.intercalate, String.intercalate.go]
    congr 1
    apply String.ext
    simp [String.data_append]
  | none =>
    refine ⟨_, _, rfl, by simp, ?_⟩
    intro _
    rfl

theorem decompileFile_report_witness :
    ∃ r fx, decompileFile failingEnv (stateWithOutput "out") "in" "pr" "a.dir" = .ok (r, fx) ∧
      r = { FileName := "a.dir", Err := some "exit status 1",
            Cmd := "pr [decompile in/a.dir --output out/a --dump-scripts]",
            Output := "boom" } := by
  obtain ⟨r, fx, h, hfail, _⟩ :=
    decompileFile_report failingEnv (stateWithOutput "out") "in" "pr" "a.dir" (Or.inl rfl)
  refine ⟨r, fx, h, ?_⟩
  rw [hfail "exit status 1" rfl]
  decide

/-! ## The ProjectorRays directory -/

/-- What `projectorRaysDir` returns after a command line is parsed: the flag
value when the flag was passed with a value other than its default, else the
environment value when non-empty, else the configured directory. -/
theorem projectorRaysDir_parsed (defaultPRDir : String) (getenv : String → String)
    (passed : Option String) (a : appState) :
    projectorRaysDir defaultPRDir getenv (parsedFlags defaultPRDir passed) a =
      (match passed with
       | some v =>
         if v ≠ defaultPRDir then v
         else if getenv PROJECTOR_RAYS ≠ "" then getenv PROJECTOR_RAYS
         else a.config.PRDirectory
       | none =>
         if getenv PROJECTOR_RAYS ≠ "" then getenv PROJECTOR_RAYS
         else a.config.PRDirectory, none) := by
  cases passed with
  | none =>
    simp [projectorRaysDir, parsedFlags, projectorRaysFlag, FlagSet.StringP, FlagSet.GetString,
      List.lookup]
  | some v =>
    simp [projectorRaysDir, parsedFlags, projectorRaysFlag, FlagSet.StringP, FlagSet.GetString,
      FlagSet.Set, List.lookup]

/-- C7 at the failing input: with the flag passed on the command line with
the value that is also its default, `projectorRaysDir` returns the value of
the environment variable and not the value passed with the flag. -/
theorem projectorRaysDir_flag_equal_default :
    projectorRaysDir "/home/u/.shockrays/projector-rays" (envWith "/env/pr")
        (parsedFlags "/home/u/.shockrays/projector-rays"
          (some "/home/u/.shockrays/projector-rays"))
        (stateWithOutput "out") = ("/env/pr", none) ∧
    "/env/pr" ≠ "/home/u/.shockrays/projector-rays" := by
  constructor
  · decide
  · decide

/-! ## Indexing -/

/-- C10: the indexing in the scanner and in `decompileFile` never goes out
of range.  Splitting a name that contains a '.' on "." gives at least two
parts, so `parts[1]` is in bounds, and the loop body and `validFileNames`
never panic; splitting any file name, the empty one included, gives at least
one part, so `parts[0]` is in bounds and `decompileFile` never panics. -/
theorem index_in_bounds :
    (∀ name : String, stringsContains name '.' = true →
      2 ≤ (stringsSplit name '.').length ∧ ∃ ext, index (stringsSplit name '.') 1 = .ok ext) ∧
    (∀ name : String, ∃ b, keepName name = .ok b) ∧
    (∀ (fs : DirReader) (inputPath : String), ∃ r, validFileNames fs inputPath = .ok r) ∧
    (∀ file : String,
      1 ≤ (stringsSplit file '.').length ∧ ∃ fileName, index (stringsSplit file '.') 0 = .ok fileName) ∧
    index (stringsSplit "" '.') 0 = .ok "" ∧
    (∀ (env : ProcessEnv) (a : appState) (inputPath projectorRays file : String),
      ∃ r, decompileFile env a inputPath projectorRays file = .ok r) := by
  refine ⟨?_, ?_, ?_, ?_, by decide, ?_⟩
  · intro name h
    have hmem : '.' ∈ name.data := by simpa [stringsContains] using h
    obtain ⟨rest, _, hlen, hidx⟩ := stringsSplit_second name '.' hmem
    exact ⟨hlen, _, hidx⟩
  · intro name
    exact ⟨_, keepName_eq name⟩
  · intro fs inputPath
    unfold validFileNames
    split
    · exact ⟨_, rfl⟩
    · split
      · exact ⟨_, rfl⟩
      · split
        · exact ⟨_, rfl⟩
        · rw [filterLoop_eq]
          exact ⟨_, rfl⟩
  · intro file
    exact ⟨stringsSplit_length_pos file '.', _, stringsSplit_head file '.'⟩
  · intro env a inputPath projectorRays file
    exact decompileFile_ok env a inputPath projectorRays file

theorem index_in_bounds_witness :
    2 ≤ (stringsSplit "a.dir" '.').length ∧
      ∃ ext, index (stringsSplit "a.dir" '.') 1 = .ok ext :=
  index_in_bounds.1 "a.dir" (by decide)

/-! ## The batch -/

theorem perm_cons_eraseIdx {α : Type} (l : List α) (i : Nat) (x : α)
    (h : l.get? i = some x) : (x :: l.eraseIdx i).Perm l := by
  induction l generalizing i with
  | nil => simp at h
  | cons y ys ih =>
    cases i with
    | zero =>
      simp at h
      subst h
      simp
    | succ n =>
      simp at h
      have := ih n (by simpa using h)
      simp only [List.eraseIdx_cons_succ]
      exact (List.Perm.swap y x _).trans (this.cons y)

theorem length_eraseIdx_add_one {α : Type} (l : List α) (i : Nat) (x : α)
    (h : l.get? i = some x) : (l.eraseIdx i).length + 1 = l.length := by
  have := (perm_cons_eraseIdx l i x h).length_eq
  simpa using this

theorem Dispatch.inv_init (outcome : String → ErrorReport) (fileNames : List String) :
    Dispatch.Inv outcome fileNames (Dispatch.init fileNames) := by
  refine ⟨rfl, ?_, ?_, ?_, ?_⟩
  · simp [Dispatch.init]
  · simp [Dispatch.init]
  · simp [Dispatch.init]
  · simp [Dispatch.init, Dispatch.pending, failures]

theorem Dispatch.pending_worker (outcome : String → ErrorReport) (s : Dispatch) (i : Nat)
    (file : String) (h : s.running.get? i = some file) :
    ((if (outcome file).Err ≠ none then [outcome file] else []) ++
      (((s.running.eraseIdx i ++ s.toSpawn).map outcome).filter
        (fun r => decide (r.Err ≠ none)))).Perm (s.pending outcome) := by
  have hp : ((file :: s.running.eraseIdx i) ++ s.toSpawn).Perm (s.running ++ s.toSpawn) :=
    (perm_cons_eraseIdx s.running i file h).append_right _
  have hp2 := (hp.map outcome).filter (fun r => decide (r.Err ≠ none))
  unfold Dispatch.pending
  refine List.Perm.trans ?_ hp2
  by_cases hf : (outcome file).Err ≠ none
  · simp [hf, List.filter_cons]
  · simp [hf, List.filter_cons]

theorem Dispatch.inv_step (outcome : String → ErrorReport) (fileNames : List String)
    (s s' : Dispatch) (st : Step) (hinv : Dispatch.Inv outcome fileNames s)
    (hstep : s.step outcome st = some s') : Dispatch.Inv outcome fileNames s' := by
  obtain ⟨hwg, hroom, hclosed, hret, hperm⟩ := hinv
  cases st with
  | spawn =>
    simp only [Dispatch.step] at hstep
    cases hts : s.toSpawn with
    | nil => simp [hts] at hstep
    | cons name rest =>
      simp only [hts, Option.some.injEq] at hstep
      subst hstep
      refine ⟨by simp only [hwg, List.length_append, List.length_cons, List.length_nil]; omega,
        ?_, ?_, ?_, ?_⟩
      · simp only [hts, List.length_cons, List.length_append, List.length_nil] at hroom ⊢
        omega
      · intro hc
        have := (hclosed hc).2
        simp [hts] at this
      · intro hr
        exact hret hr
      · simpa [Dispatch.pending, hts] using hperm
  | worker i =>
    rw [Dispatch.step] at hstep
    cases hg : s.running.get? i with
    | none =>
      rw [hg] at hstep
      simp at hstep
    | some file =>
      have hlen := length_eraseIdx_add_one s.running i file hg
      have hpw := Dispatch.pending_worker outcome s i file hg
      have hnotclosed : s.closed = true → False := by
        intro hc
        have := (hclosed hc).1
        simp [this] at hg
      rw [hg] at hstep
      dsimp only at hstep
      by_cases hf : (outcome file).Err ≠ none
      · rw [if_pos hf] at hstep hpw
        by_cases hcap : s.errChan.length < s.capacity
        · rw [if_pos hcap] at hstep
          simp only [Option.some.injEq] at hstep
          subst hstep
          refine ⟨?_, ?_, ?_, ?_, ?_⟩
          · simp only
            omega
          · simp only [List.length_append, List.length_cons, List.length_nil]
            omega
          · intro hc
            exact (hnotclosed hc).elim
          · intro hr
            exact (hnotclosed (hret hr).2).elim
          · simp only [Dispatch.pending, List.append_assoc]
            refine List.Perm.trans ?_ hperm
            exact (hpw.append_left s.errChan).append_left s.errors
        · rw [if_neg hcap] at hstep
          simp at hstep
      · rw [if_neg hf] at hstep hpw
        simp only [Option.some.injEq] at hstep
        subst hstep
        refine ⟨?_, ?_, ?_, ?_, ?_⟩
        · simp only
          omega
        · simp only
          omega
        · intro hc
          exact (hnotclosed hc).elim
        · intro hr
          exact (hnotclosed (hret hr).2).elim
        · simp only [Dispatch.pending]
          refine List.Perm.trans ?_ hperm
          exact (hpw.append_left s.errChan).append_left s.errors
  | done =>
    simp only [Dispatch.step] at hstep
    split at hstep
    · rename_i hc
      simp only [Option.some.injEq] at hstep
      subst hstep
      refine ⟨?_, hroom, hclosed, hret, hperm⟩
      simp only
      omega
    · simp at hstep
  | close =>
    simp only [Dispatch.step] at hstep
    split at hstep
    · rename_i hc
      simp only [Option.some.injEq] at hstep
      subst hstep
      refine ⟨hwg, hroom, ?_, ?_, hperm⟩
      · intro _
        refine ⟨?_, hc.1⟩
        have : s.running.length = 0 := by have := hc.2.1; omega
        exact List.length_eq_zero.mp this
      · intro hr
        exact ⟨(hret hr).1, rfl⟩
    · simp at hstep
  | receive =>
    simp only [Dispatch.step] at hstep
    split at hstep
    · rename_i hc
      cases hch : s.errChan with
      | nil => simp [hch] at hstep
      | cons err rest =>
        simp only [hch, Option.some.injEq] at hstep
        subst hstep
        refine ⟨hwg, ?_, hclosed, ?_, ?_⟩
        · simp only [hch, List.length_cons] at hroom ⊢
          omega
        · intro hr
          simp [hc.2] at hr
        · simpa [Dispatch.pending, hch] using hperm
    · simp at hstep
  | leave =>
    simp only [Dispatch.step] at hstep
    split at hstep
    · rename_i hc
      simp only [Option.some.injEq] at hstep
      subst hstep
      exact ⟨hwg, hroom, hclosed, fun _ => ⟨hc.2.1, hc.2.2.1⟩, hperm⟩
    · simp at hstep

/-- Every step lowers the bound on the steps left, so no run is infinite. -/
theorem Dispatch.size_step (outcome : String → ErrorReport) (s s' : Dispatch) (st : Step)
    (hstep : s.step outcome st = some s') : s'.size < s.size := by
  cases st with
  | spawn =>
    rw [Dispatch.step] at hstep
    cases hts : s.toSpawn with
    | nil => rw [hts] at hstep; simp at hstep
    | cons name rest =>
      rw [hts] at hstep
      simp only [Option.some.injEq] at hstep
      subst hstep
      simp only [Dispatch.size, hts, List.length_cons, List.length_append, List.length_nil]
      omega
  | worker i =>
    rw [Dispatch.step] at hstep
    cases hg : s.running.get? i with
    | none => rw [hg] at hstep; simp at hstep
    | some file =>
      have hlen := length_eraseIdx_add_one s.running i file hg
      rw [hg] at hstep
      dsimp only at hstep
      by_cases hf : (outcome file).Err ≠ none
      · rw [if_pos hf] at hstep
        by_cases hcap : s.errChan.length < s.capacity
        · rw [if_pos hcap] at hstep
          simp only [Option.some.injEq] at hstep
          subst hstep
          simp only [Dispatch.size, List.length_append, List.length_cons, List.length_nil]
          omega
        · rw [if_neg hcap] at hstep
          simp at hstep
      · rw [if_neg hf] at hstep
        simp only [Option.some.injEq] at hstep
        subst hstep
        simp only [Dispatch.size]
        omega
  | done =>
    rw [Dispatch.step] at hstep
    split at hstep
    · rename_i hc
      simp only [Option.some.injEq] at hstep
      subst hstep
      simp only [Dispatch.size]
      omega
    · simp at hstep
  | close =>
    rw [Dispatch.step] at hstep
    split at hstep
    · rename_i hc
      simp only [Option.some.injEq] at hstep
      subst hstep
      simp [Dispatch.size, hc.2.2]
    · simp at hstep
  | receive =>
    rw [Dispatch.step] at hstep
    split at hstep
    · cases hch : s.errChan with
      | nil => rw [hch] at hstep; simp at hstep
      | cons err rest =>
        rw [hch] at hstep
        simp only [Option.some.injEq] at hstep
        subst hstep
        simp only [Dispatch.size, hch, List.length_cons]
        omega
    · simp at hstep
  | leave =>
    rw [Dispatch.step] at hstep
    split at hstep
    · rename_i hc
      simp only [Option.some.injEq] at hstep
      subst hstep
      simp [Dispatch.size, hc.2.2.2]
    · simp at hstep

theorem Dispatch.follow_inv_size (outcome : String → ErrorReport) (fileNames : List String)
    (sched : List Step) (s : Dispatch) (hinv : Dispatch.Inv outcome fileNames s) :
    Dispatch.Inv outcome fileNames (Dispatch.follow outcome sched s) ∧
      (Dispatch.follow outcome sched s).size ≤ s.size := by
  induction sched generalizing s with
  | nil => exact ⟨hinv, Nat.le_refl _⟩
  | cons st sched ih =>
    rw [Dispatch.follow]
    cases hs : s.step outcome st with
    | none => exact ih s hinv
    | some s' =>
      have h1 := ih s' (Dispatch.inv_step outcome fileNames s s' st hinv hs)
      have h2 := Dispatch.size_step outcome s s' st hs
      exact ⟨h1.1, by dsimp only; omega⟩

/-- No reachable state is stuck before main has left its loop: the step of
the fixed scheduler is enabled. -/
theorem Dispatch.progress (outcome : String → ErrorReport) (fileNames : List String)
    (s : Dispatch) (hinv : Dispatch.Inv outcome fileNames s) (hret : s.returned = false) :
    ∃ s', s.step outcome s.next = some s' := by
  obtain ⟨hwg, hroom, _, _, _⟩ := hinv
  unfold Dispatch.next
  by_cases h1 : s.toSpawn ≠ []
  · rw [if_pos h1, Dispatch.step]
    cases hts : s.toSpawn with
    | nil => exact absurd hts h1
    | cons name rest => exact ⟨_, rfl⟩
  · rw [if_neg h1]
    have h1' : s.toSpawn = [] := by simpa using h1
    by_cases h2 : s.running ≠ []
    · rw [if_pos h2, Dispatch.step]
      cases hr : s.running with
      | nil => exact absurd hr h2
      | cons file rest =>
        have hpos : 0 < s.running.length := by rw [hr]; simp
        have hcap : s.errChan.length < s.capacity := by omega
        simp only [List.get?_cons_zero]
        by_cases hf : (outcome file).Err ≠ none
        · rw [if_pos hf, if_pos hcap]
          exact ⟨_, rfl⟩
        · rw [if_neg hf]
          exact ⟨_, rfl⟩
    · rw [if_neg h2]
      have h2' : s.running = [] := by simpa using h2
      by_cases hfin : 0 < s.finishing
      · rw [if_pos hfin, Dispatch.step, if_pos hfin]
        exact ⟨_, rfl⟩
      · rw [if_neg hfin]
        by_cases h3 : s.errChan ≠ []
        · rw [if_pos h3, Dispatch.step, if_pos ⟨h1', hret⟩]
          cases hch : s.errChan with
          | nil => exact absurd hch h3
          | cons err rest => exact ⟨_, rfl⟩
        · rw [if_neg h3]
          have h3' : s.errChan = [] := by simpa using h3
          by_cases h4 : s.closed = false
          · have hwg0 : s.wg = 0 := by rw [hwg, h2']; simp; omega
            rw [if_pos h4, Dispatch.step, if_pos ⟨h1', hwg0, h4⟩]
            exact ⟨_, rfl⟩
          · have h4' : s.closed = true := by simpa using h4
            rw [if_neg h4, Dispatch.step, if_pos ⟨h1', h3', h4', hret⟩]
            exact ⟨_, rfl⟩

/-- With fuel for every step left, the run ends with main out of its loop. -/
theorem Dispatch.finish_returned (outcome : String → ErrorReport) (fileNames : List String)
    (fuel : Nat) (s : Dispatch) (hinv : Dispatch.Inv outcome fileNames s)
    (hfuel : s.size ≤ fuel) :
    Dispatch.Inv outcome fileNames (Dispatch.finish outcome fuel s) ∧
      (Dispatch.finish outcome fuel s).returned = true := by
  induction fuel generalizing s with
  | zero =>
    rw [Dispatch.finish]
    refine ⟨hinv, ?_⟩
    cases hr : s.returned with
    | true => rfl
    | false =>
      simp only [Dispatch.size, hr] at hfuel
      simp at hfuel
  | succ fuel ih =>
    rw [Dispatch.finish]
    cases hr : s.returned with
    | true => simpa using ⟨hinv, hr⟩
    | false =>
      obtain ⟨s', hs'⟩ := Dispatch.progress outcome fileNames s hinv hr
      have h1 := Dispatch.inv_step outcome fileNames s s' s.next hinv hs'
      have h2 := Dispatch.size_step outcome s s' s.next hs'
      simp only [hs', Bool.false_eq_true, if_false]
      exact ih s' h1 (by omega)

/-- Under every schedule `decompileFiles` returns; it returns a nil error,
has collected the failure reports of the batch, each once, in some order,
and has logged the summary line and one record per collected report. -/
theorem decompileFiles_returns (outcome : String → ErrorReport) (sched : List Step)
    (fileNames : List String) :
    ∃ res, decompileFiles outcome sched fileNames = some res ∧
      res.ret = none ∧
      res.errors.Perm (failures outcome fileNames) ∧
      res.log = summaryLine res.errors.length fileNames.length :: res.errors.map errorLine := by
  have h0 := Dispatch.follow_inv_size outcome fileNames sched (Dispatch.init fileNames)
    (Dispatch.inv_init outcome fileNames)
  have hsize : (Dispatch.init fileNames).size = 4 * fileNames.length + 2 := by
    simp [Dispatch.size, Dispatch.init]
  have h1 := Dispatch.finish_returned outcome fileNames (4 * fileNames.length + 2)
    (Dispatch.follow outcome sched (Dispatch.init fileNames)) h0.1 (by omega)
  obtain ⟨hinv, hret⟩ := h1
  have hres : decompileFiles outcome sched fileNames =
      some { ret := none,
             errors := (Dispatch.finish outcome (4 * fileNames.length + 2)
               (Dispatch.follow outcome sched (Dispatch.init fileNames))).errors,
             log := summaryLine (Dispatch.finish outcome (4 * fileNames.length + 2)
                 (Dispatch.follow outcome sched (Dispatch.init fileNames))).errors.length
                 fileNames.length ::
               (Dispatch.finish outcome (4 * fileNames.length + 2)
                 (Dispatch.follow outcome sched (Dispatch.init fileNames))).errors.map
                 errorLine } := by
    simp only [decompileFiles, hret, if_true]
  refine ⟨_, hres, rfl, ?_, rfl⟩
  obtain ⟨hch, hcl⟩ := hinv.returned_imp hret
  obtain ⟨hrun, hts⟩ := hinv.closed_imp hcl
  have hp := hinv.perm
  simpa [Dispatch.pending, hch, hrun, hts] using hp

/-- The failure reports of a batch are as many as its failing jobs. -/
theorem failures_length (outcome : String → ErrorReport) (fileNames : List String) :
    (failures outcome fileNames).length =
      fileNames.countP (fun file => decide ((outcome file).Err ≠ none)) := by
  unfold failures
  rw [← List.countP_eq_length_filter, List.countP_map]
  rfl

theorem decompileFile_FileName (env : ProcessEnv) (a : appState)
    (inputPath projectorRays file : String) (r : ErrorReport) (fx : List Effect)
    (h : decompileFile env a inputPath projectorRays file = .ok (r, fx))
    (herr : r.Err ≠ none) : r.FileName = file := by
  rw [decompileFile_unfold] at h
  split at h
  · simp only [Except.ok.injEq, Prod.mk.injEq] at h
    rw [← h.1]
  · split at h
    · simp only [Except.ok.injEq, Prod.mk.injEq] at h
      rw [← h.1]
    · simp only [Except.ok.injEq, Prod.mk.injEq] at h
      rw [← h.1] at herr
      exact absurd rfl herr

/-- C4: for a batch of N file names of which exactly K have an outcome with
a non-nil `Err`, under every schedule `decompileFiles` returns having
collected exactly K reports and logged the summary for K errors and N files.
The collected reports are the failing jobs' own reports, each as often as
jobs returned it, a succeeding job contributes none, and every collected
report comes from a failing job of the batch; with K = 1 exactly the one
failing job's report is collected.  A report that `decompileFile` returns
with a non-nil `Err` carries the job's file name. -/
theorem decompileFiles_collects (outcome : String → ErrorReport) (sched : List Step)
    (fileNames : List String) (N K : Nat) (hN : fileNames.length = N)
    (hK : fileNames.countP (fun file => decide ((outcome file).Err ≠ none)) = K) :
    (∃ res, decompileFiles outcome sched fileNames = some res ∧
      res.errors.length = K ∧
      res.log.head? = some
        { level := "INFO",
          msg := toString K ++ " errors were encountered while decompiling " ++
            toString N ++ " files",
          attrs := [] } ∧
      res.log.tail.map (fun l => (l.level, l.attrs.lookup "file_name")) =
        res.errors.map (fun r => ("ERROR", some r.FileName)) ∧
      res.errors.Perm ((fileNames.map outcome).filter (fun r => decide (r.Err ≠ none))) ∧
      (∀ r : ErrorReport, r.Err ≠ none →
        res.errors.count r = (fileNames.map outcome).count r) ∧
      (∀ r : ErrorReport, r.Err = none → r ∉ res.errors) ∧
      (∀ r ∈ res.errors, ∃ file ∈ fileNames, outcome file = r ∧ (outcome file).Err ≠ none) ∧
      (K = 1 → ∃ file ∈ fileNames, (outcome file).Err ≠ none ∧ res.errors = [outcome file])) ∧
    (∀ (env : ProcessEnv) (a : appState) (inputPath projectorRays file : String)
      (r : ErrorReport) (fx : List Effect),
      decompileFile env a inputPath projectorRays file = .ok (r, fx) → r.Err ≠ none →
        r.FileName = file) := by
  refine ⟨?_, decompileFile_FileName⟩
  obtain ⟨res, hres, _, hperm, hlog⟩ := decompileFiles_returns outcome sched fileNames
  have hlen : res.errors.length = K := by
    rw [hperm.length_eq, failures_length, hK]
  have hmem : ∀ r ∈ res.errors,
      ∃ file ∈ fileNames, outcome file = r ∧ (outcome file).Err ≠ none := by
    intro r hr
    have h1 := hperm.mem_iff.mp hr
    simp only [failures, List.mem_filter, List.mem_map, decide_eq_true_eq] at h1
    obtain ⟨⟨file, hfile, hrf⟩, hne⟩ := h1
    exact ⟨file, hfile, hrf, by rw [hrf]; exact hne⟩
  refine ⟨res, hres, hlen, ?_, ?_, hperm, ?_, ?_, hmem, ?_⟩
  · rw [hlog, hlen, hN]
    rfl
  · rw [hlog]
    simp [errorLine, List.lookup]
  · intro r hr
    rw [hperm.count_eq r, failures, List.count_filter]
    simpa using hr
  · intro r hr hmem'
    obtain ⟨file, _, hrf, hne⟩ := hmem r hmem'
    rw [hrf] at hne
    exact hne hr
  · intro hK1
    rw [hK1] at hlen
    obtain ⟨r, hr⟩ := List.length_eq_one.mp hlen
    obtain ⟨file, hfile, hrf, hne⟩ := hmem r (by rw [hr]; simp)
    exact ⟨file, hfile, hne, by rw [hr, hrf]⟩

theorem decompileFiles_collects_witness :
    ∃ res, decompileFiles sampleOutcome [.spawn, .spawn, .worker 1, .spawn, .worker 0]
        ["a.dir", "b.dir", "d.cst"] = some res ∧
      res.errors.length = 1 ∧
      res.log.head? = some
        { level := "INFO",
          msg := "1 errors were encountered while decompiling 3 files",
          attrs := [] } ∧
      res.log.tail.map (fun l => (l.level, l.attrs.lookup "file_name")) =
        [("ERROR", some "b.dir")] := by
  obtain ⟨res, h, hlen, hlog, htail, _, _, _, _, hone⟩ :=
    (decompileFiles_collects sampleOutcome [.spawn, .spawn, .worker 1, .spawn, .worker 0]
      ["a.dir", "b.dir", "d.cst"] 3 1 (by decide) (by decide)).1
  have hd : (decompileFiles sampleOutcome [.spawn, .spawn, .worker 1, .spawn, .worker 0]
      ["a.dir", "b.dir", "d.cst"]).map (fun r => r.errors.map (fun e => e.FileName)) =
      some ["b.dir"] := by
    decide
  rw [h] at hd
  have hnames : res.errors.map (fun e => e.FileName) = ["b.dir"] := Option.some.inj hd
  refine ⟨res, h, hlen, ?_, ?_⟩
  · rw [hlog]
    decide
  · have hmap : res.errors.map (fun r => ("ERROR", some r.FileName)) =
        (res.errors.map (fun e => e.FileName)).map (fun n => ("ERROR", some n)) := by
      rw [List.map_map]
      rfl
    rw [htail, hmap, hnames]
    rfl

/-- C5: for every batch, every combination of per-job outcomes (all jobs
failing included) and every schedule, `decompileFiles` returns, and the error
it returns is nil. -/
theorem decompileFiles_nil_error (outcome : String → ErrorReport) (sched : List Step)
    (fileNames : List String) :
    ∃ res, decompileFiles outcome sched fileNames = some res ∧ res.ret = none := by
  obtain ⟨res, hres, hret, _⟩ := decompileFiles_returns outcome sched fileNames
  exact ⟨res, hres, hret⟩

/-- When the report of every job is given and does not depend on the
schedule, the runs of `decompileFiles` under any two schedules of its
goroutines both return, collect a file's report exactly when its `Err` is
non-nil, and collect sequences of reports that are permutations of each
other; both return nil and log the same summary line. -/
theorem decompileFiles_order_independent (outcome : String → ErrorReport)
    (fileNames : List String) (sched₁ sched₂ : List Step) :
    ∃ res₁ res₂, decompileFiles outcome sched₁ fileNames = some res₁ ∧
      decompileFiles outcome sched₂ fileNames = some res₂ ∧
      res₁.errors.Perm res₂.errors ∧
      (∀ file ∈ fileNames,
        (outcome file ∈ res₁.errors ↔ (outcome file).Err ≠ none) ∧
        (outcome file ∈ res₂.errors ↔ (outcome file).Err ≠ none)) ∧
      res₁.ret = res₂.ret ∧
      res₁.log.head? = res₂.log.head? := by
  obtain ⟨res₁, h₁, hret₁, hperm₁, hlog₁⟩ := decompileFiles_returns outcome sched₁ fileNames
  obtain ⟨res₂, h₂, hret₂, hperm₂, hlog₂⟩ := decompileFiles_returns outcome sched₂ fileNames
  have hmem : ∀ file ∈ fileNames,
      (outcome file ∈ failures outcome fileNames ↔ (outcome file).Err ≠ none) := by
    intro file hfile
    simp only [failures, List.mem_filter, List.mem_map, decide_eq_true_eq]
    constructor
    · intro h
      exact h.2
    · intro h
      exact ⟨⟨file, hfile, rfl⟩, h⟩
  refine ⟨res₁, res₂, h₁, h₂, hperm₁.trans hperm₂.symm, ?_, by rw [hret₁, hret₂], ?_⟩
  · intro file hfile
    exact ⟨hperm₁.mem_iff.trans (hmem file hfile), hperm₂.mem_iff.trans (hmem file hfile)⟩
  · rw [hlog₁, hlog₂, hperm₁.length_eq, hperm₂.length_eq]
    rfl

/-- The order of the collected reports does depend on the schedule: when
the worker of c.dir completes before the worker of b.dir the reports are
collected in that order, and in the opposite order otherwise. -/
theorem decompileFiles_order_varies :
    (decompileFiles sampleOutcome [.spawn, .spawn, .spawn, .worker 2, .worker 1]
        ["a.dir", "b.dir", "c.dir"]).map (fun res => res.errors.map (fun r => r.FileName)) =
      some ["c.dir", "b.dir"] ∧
    (decompileFiles sampleOutcome [.spawn, .spawn, .spawn, .worker 1, .worker 1]
        ["a.dir", "b.dir", "c.dir"]).map (fun res => res.errors.map (fun r => r.FileName)) =
      some ["b.dir", "c.dir"] := by
  constructor
  · decide
  · decide

/-! ## Output directories -/

theorem outputDirOf_ensureOutputDir (env : ProcessEnv) (outputDir : String)
    (rest : List Effect) :
    outputDirOf ((ensureOutputDir env outputDir).2 ++ rest) = some outputDir := by
  unfold ensureOutputDir
  split
  · split <;> rfl
  · rfl

/-- Every run of `decompileFile` computes as output directory the output
root joined with the part of the file name before its first '.'. -/
theorem decompileFile_outputDir (env : ProcessEnv) (a : appState)
    (inputPath projectorRays file : String) :
    ∃ r fx, decompileFile env a inputPath projectorRays file = .ok (r, fx) ∧
      outputDirOf fx = some (env.Join a.config.ScriptOutputDir (beforeFirstDot file)) := by
  rw [decompileFile_unfold]
  have h0 := outputDirOf_ensureOutputDir env (specOutputDir env a file) []
  have h1 := fun rest => outputDirOf_ensureOutputDir env (specOutputDir env a file) rest
  rcases hE : ensureOutputDir env (specOutputDir env a file) with ⟨e, fx⟩
  rw [hE] at h0 h1
  simp only [List.append_nil] at h0
  rcases hO : env.Output (specInvocation env a inputPath projectorRays file) with ⟨output, oerr⟩
  cases e with
  | some err => exact ⟨_, _, rfl, h0⟩
  | none =>
    cases oerr with
    | some err => exact ⟨_, _, rfl, h1 _⟩
    | none => exact ⟨_, _, rfl, h1 _⟩

/-- C11: the map from accepted file names to output directories is not
injective.  The distinct names a.dir and a.cst are both accepted by the
scanner and, in every environment and configuration, `decompileFile`
computes the same output directory for them.  In general, for file names
`f` and `g` with the same part before their first '.', `decompileFile`
computes the same output directory, the output root joined with that
part. -/
theorem decompileFile_outputDir_not_injective :
    (keepName "a.dir" = .ok true ∧ keepName "a.cst" = .ok true ∧ "a.dir" ≠ "a.cst" ∧
      ∀ (env : ProcessEnv) (a : appState) (inputPath projectorRays : String),
        ∃ r₁ fx₁ r₂ fx₂,
          decompileFile env a inputPath projectorRays "a.dir" = .ok (r₁, fx₁) ∧
          decompileFile env a inputPath projectorRays "a.cst" = .ok (r₂, fx₂) ∧
          outputDirOf fx₁ = some (env.Join a.config.ScriptOutputDir "a") ∧
          outputDirOf fx₂ = some (env.Join a.config.ScriptOutputDir "a")) ∧
    (∀ (env : ProcessEnv) (a : appState) (inputPath projectorRays f g : String),
      beforeFirstDot f = beforeFirstDot g →
        ∃ r₁ fx₁ r₂ fx₂,
          decompileFile env a inputPath projectorRays f = .ok (r₁, fx₁) ∧
          decompileFile env a inputPath projectorRays g = .ok (r₂, fx₂) ∧
          outputDirOf fx₁ = outputDirOf fx₂ ∧
          outputDirOf fx₁ = some (env.Join a.config.ScriptOutputDir (beforeFirstDot f))) := by
  refine ⟨⟨by decide, by decide, by decide, ?_⟩, ?_⟩
  · intro env a inputPath projectorRays
    obtain ⟨r₁, fx₁, h₁, hd₁⟩ := decompileFile_outputDir env a inputPath projectorRays "a.dir"
    obtain ⟨r₂, fx₂, h₂, hd₂⟩ := decompileFile_outputDir env a inputPath projectorRays "a.cst"
    have e₁ : beforeFirstDot "a.dir" = "a" := by decide
    have e₂ : beforeFirstDot "a.cst" = "a" := by decide
    rw [e₁] at hd₁
    rw [e₂] at hd₂
    exact ⟨r₁, fx₁, r₂, fx₂, h₁, h₂, hd₁, hd₂⟩
  · intro env a inputPath projectorRays f g hfg
    obtain ⟨r₁, fx₁, h₁, hd₁⟩ := decompileFile_outputDir env a inputPath projectorRays f
    obtain ⟨r₂, fx₂, h₂, hd₂⟩ := decompileFile_outputDir env a inputPath projectorRays g
    refine ⟨r₁, fx₁, r₂, fx₂, h₁, h₂, ?_, hd₁⟩
    rw [hd₁, hd₂, hfg]

theorem decompileFile_outputDir_not_injective_witness :
    beforeFirstDot "a.dir" = beforeFirstDot "a.dcr.bak" ∧
    ∃ r₁ fx₁ r₂ fx₂,
      decompileFile failingEnv (stateWithOutput "out") "in" "pr" "a.dir" = .ok (r₁, fx₁) ∧
      decompileFile failingEnv (stateWithOutput "out") "in" "pr" "a.dcr.bak" = .ok (r₂, fx₂) ∧
      outputDirOf fx₁ = outputDirOf fx₂ ∧
      outputDirOf fx₁ = some "out/a" := by
  refine ⟨by decide, ?_⟩
  obtain ⟨r₁, fx₁, r₂, fx₂, h₁, h₂, heq, hd⟩ :=
    decompileFile_outputDir_not_injective.2 failingEnv (stateWithOutput "out") "in" "pr"
      "a.dir" "a.dcr.bak" (by decide)
  refine ⟨r₁, fx₁, r₂, fx₂, h₁, h₂, heq, ?_⟩
  rw [hd]
  decide

/-! ## The batch over a shared file system -/

/-- A worker that is not interleaved with others does what `decompileFile`
does: after its three calls on the file system `dirs` it has returned the
report that `decompileFile` returns in the environment `dirs` gives. -/
theorem advance_agrees (join : String → String → String)
    (output : Cmd → String × Option String) (a : appState)
    (inputPath projectorRays file : String) (dirs : List String) :
    ∃ r fx, decompileFile (envOf join output dirs) a inputPath projectorRays file = .ok (r, fx) ∧
      (advance join output a inputPath projectorRays file
        (advance join output a inputPath projectorRays file
          (advance join output a inputPath projectorRays file dirs .start).1
          (advance join output a inputPath projectorRays file dirs .start).2).1
        (advance join output a inputPath projectorRays file
          (advance join output a inputPath projectorRays file dirs .start).1
          (advance join output a inputPath projectorRays file dirs .start).2).2).2 = .send r := by
  rw [decompileFile_unfold]
  have hd : specOutputDir (envOf join output dirs) a file =
      join a.config.ScriptOutputDir (beforeFirstDot file) := rfl
  have hinv : specInvocation (envOf join output dirs) a inputPath projectorRays file =
      { Path := projectorRays,
        Args := [projectorRays, "decompile", join inputPath file, "--output",
          join a.config.ScriptOutputDir (beforeFirstDot file), "--dump-scripts"],
        Dir := join a.config.ScriptOutputDir (beforeFirstDot file) } := rfl
  have hout : (envOf join output dirs).Output = output := rfl
  have hjoin : (envOf join output dirs).Join = join := rfl
  have hstart : advance join output a inputPath projectorRays file dirs .start =
      if join a.config.ScriptOutputDir (beforeFirstDot file) ∉ dirs then
        (dirs, .mkdir (join a.config.ScriptOutputDir (beforeFirstDot file)))
      else (dirs, .output (join a.config.ScriptOutputDir (beforeFirstDot file))) := by
    simp only [advance, stringsSplit_head, beforeFirstDot]
  have hE : ensureOutputDir (envOf join output dirs)
      (join a.config.ScriptOutputDir (beforeFirstDot file)) =
      if join a.config.ScriptOutputDir (beforeFirstDot file) ∉ dirs then
        (none, [.stat (join a.config.ScriptOutputDir (beforeFirstDot file)),
          .mkdir (join a.config.ScriptOutputDir (beforeFirstDot file)),
          .logDebug "Created output directory"
            [("dir_name", join a.config.ScriptOutputDir (beforeFirstDot file))]])
      else (none, [.stat (join a.config.ScriptOutputDir (beforeFirstDot file))]) := by
    by_cases hmem : join a.config.ScriptOutputDir (beforeFirstDot file) ∈ dirs
    · simp [ensureOutputDir, envOf, hmem]
    · simp [ensureOutputDir, envOf, hmem]
  rw [hstart, hd, hinv, hout, hjoin, hE]
  generalize join a.config.ScriptOutputDir (beforeFirstDot file) = d
  have hcmd : ({ execCommand projectorRays
      ["decompile", join inputPath file, "--output", d, "--dump-scripts"] with Dir := d } : Cmd) =
      { Path := projectorRays,
        Args := [projectorRays, "decompile", join inputPath file, "--output", d,
          "--dump-scripts"],
        Dir := d } := rfl
  rcases hO : output
      { Path := projectorRays,
        Args := [projectorRays, "decompile", join inputPath file, "--output", d,
          "--dump-scripts"],
        Dir := d } with ⟨out, oerr⟩
  by_cases hmem : d ∈ dirs
  · simp only [hmem, not_true_eq_false, if_false, advance, hcmd, hO]
    cases oerr with
    | some err => exact ⟨_, _, rfl, rfl⟩
    | none => exact ⟨_, _, rfl, rfl⟩
  · simp only [hmem, not_false_eq_true, if_true, if_false, advance, hcmd, hO]
    cases oerr with
    | some err => exact ⟨_, _, rfl, rfl⟩
    | none => exact ⟨_, _, rfl, rfl⟩

/-- C9 at the failing input: the batch a.dir, a.cst, which the scanner
returns for a directory holding these two files, on a file system where the
output root exists and the output directory out/a does not, with a
decompiler that always exits zero.  When the workers run one after the
other no file is reported as failed.  When both workers call `os.Stat`
before either calls `os.Mkdir`, the worker that calls `os.Mkdir` second gets
the error of an existing directory and its file is reported as failed:
a.cst in one completion order, a.dir in the other. -/
theorem decompileFiles_classification_depends_on_order :
    validFileNames (listingOf ["a.dir", "a.cst"]) "in" = .ok (["a.dir", "a.cst"], none) ∧
    decompileFilesOn joinSlash alwaysZero (stateWithOutput "out") "in" "pr" ["out"]
        oneAfterTheOther ["a.dir", "a.cst"] = some [] ∧
    decompileFilesOn joinSlash alwaysZero (stateWithOutput "out") "in" "pr" ["out"]
        bothStatFirst ["a.dir", "a.cst"] =
      some [{ FileName := "a.cst", Err := some "mkdir out/a: file exists", Cmd := "",
              Output := "" }] ∧
    decompileFilesOn joinSlash alwaysZero (stateWithOutput "out") "in" "pr" ["out"]
        bothStatSecond ["a.dir", "a.cst"] =
      some [{ FileName := "a.dir", Err := some "mkdir out/a: file exists", Cmd := "",
              Output := "" }] := by
  refine ⟨?_, ?_, ?_, ?_⟩
  · decide
  · decide
  · decide
  · decide

/-- Splitting on concrete names. -/
theorem stringsSplit_examples :
    stringsSplit "a.dcr.bak" '.' = ["a", "dcr", "bak"] ∧
    stringsSplit "" '.' = [""] ∧
    stringsSplit "noext" '.' = ["noext"] ∧
    stringsSplit ".." '.' = ["", "", ""] ∧
    stringsSplit ".dir" '.' = ["", "dir"] := by
  decide

end Shockrays
